import Mathlib

/-!
Shallow embedding of the mtcg-mcp card-catalog core: the case-insensitive
Levenshtein scorer and ranker (`src/fuzzy.ts`), and the SQLite-backed catalog
store and query resolver (`importCards`, `searchCardsByName`, `listDecks`,
`getDeckCards` from the current `db.ts`, the version carrying the optional
`binderType` scope filter and the delete-then-insert import).

Modelling conventions:
- A database is the list of rows of the single `cards` table, in rowid
  (insertion) order.
- `SELECT DISTINCT x FROM cards WHERE p` is embedded as deduplication (first
  occurrence kept) of the projected column of the filtered rows; SQL leaves the
  enumeration order of DISTINCT unspecified, and every theorem below that
  touches such a list is order-independent.
- SQLite `LIKE` (case-insensitive on ASCII, `%`/`_` wildcards) is embedded by
  `likeMatch`; the patterns built by the code are `'%' ++ query ++ '%'`.
- JavaScript `Array.prototype.sort` with comparator `a.distance - b.distance`
  is a stable ascending sort; it is embedded by the stable insertion sort
  `isortLe`.  `Array.prototype.slice(0, end)` with a possibly negative `end`
  is embedded by `jsSliceTo`.
- Statements that write (`DELETE`, `INSERT`) change the state; `SELECT` does
  not.  The `*S` variants thread the database state explicitly so that the
  read-only frame of the query operations is a stated theorem.
-/

namespace Mtcg

/-- The `binder_type` column, CHECK-constrained to `'binder' | 'deck'`. -/
inductive BinderType where
  | binder
  | deck
deriving DecidableEq

/-- A row of the `cards` table (`Card` in `types.ts`).  Fields the core never
inspects are carried as opaque payload; `purchase_price REAL` is carried as a
rational, the claims never read it. -/
structure Card where
  binderName : String
  binderType : BinderType
  name : String
  setCode : String
  setName : String
  collectorNumber : String
  foil : String
  rarity : String
  quantity : Int
  manaboxId : Int
  scryfallId : String
  purchasePrice : Rat
  misprint : Bool
  altered : Bool
  condition : String
  language : String
  purchasePriceCurrency : String
deriving DecidableEq

/-- The projection returned by the query tools (`CardSummary` in `types.ts`). -/
structure CardSummary where
  binderType : BinderType
  binderName : String
  quantity : Int
  name : String
  scryfallId : String
deriving DecidableEq

/-- One aggregate row of `listDecks` (`Deck` in `types.ts`). -/
structure Deck where
  name : String
  cardCount : Int
deriving DecidableEq

/-- Composition of `rowToCardSummary` with the summary-column SELECT list
`binder_type, binder_name, quantity, name, scryfall_id`. -/
def cardToSummary (c : Card) : CardSummary :=
  { binderType := c.binderType
    binderName := c.binderName
    quantity := c.quantity
    name := c.name
    scryfallId := c.scryfallId }

/-! ### SQLite LIKE -/

/-- Fuel-indexed SQLite `LIKE` matcher: `'%'` matches any run of characters,
`'_'` any single character, any other pattern character matches
case-insensitively (ASCII, `Char.toLower`).  Structural recursion on fuel so
that concrete instances reduce in the kernel; `likeMatch` supplies enough
fuel for the recursion, which consumes one unit per step while shortening
`pattern.length + s.length`. -/
def likeMatchF : Nat → List Char → List Char → Bool
  | 0, _, _ => false
  | _ + 1, [], s => s.isEmpty
  | f + 1, '%' :: ps, s =>
      likeMatchF f ps s ||
        (match s with
          | [] => false
          | _ :: s' => likeMatchF f ('%' :: ps) s')
  | f + 1, '_' :: ps, s =>
      match s with
      | [] => false
      | _ :: s' => likeMatchF f ps s'
  | f + 1, p :: ps, s =>
      match s with
      | [] => false
      | c :: s' => p.toLower == c.toLower && likeMatchF f ps s'

/-- SQLite `LIKE`: does `s` match `pattern`? -/
def likeMatch (pattern s : List Char) : Bool :=
  likeMatchF (pattern.length + s.length + 1) pattern s

/-- The pattern `` `%${query}%` `` built by `searchCardsByName`. -/
def likePat (query : String) : List Char :=
  ['%'] ++ query.data ++ ['%']

/-- The row predicate of `WHERE name LIKE '%' || query || '%'`. -/
def nameLike (query : String) (c : Card) : Bool :=
  likeMatch (likePat query) c.name.data

/-! ### Levenshtein scorer (`computeLevenshteinDistance`, fuzzy.ts) -/

/-- Inner loop of the two-row DP: given the current row character `xc`, the
remaining suffix of `right`, the matching suffix `prev[j..]` of the previous
row together with `prev[j-1]` and `curr[j-1]`, produce `curr[j..]`. -/
def levRowGo (xc : Char) : List Char → List Nat → Nat → Nat → List Nat
  | [], _, _, _ => []
  | _ :: _, [], _, _ => []
  | yc :: ys, pj :: prest, pjm1, cjm1 =>
      let cost : Nat := if xc == yc then 0 else 1
      let cj := min (pj + 1) (min (cjm1 + 1) (pjm1 + cost))
      cj :: levRowGo xc ys prest pj cj

/-- Outer loop of the DP over the characters of `left`, carrying the row
index `i` and the previous row. -/
def levLoop (right : List Char) : List Char → Nat → List Nat → List Nat
  | [], _, prev => prev
  | xc :: xs, i, prev =>
      levLoop right xs (i + 1)
        (i :: levRowGo xc right prev.tail (prev.headD 0) i)

/-- Embedding of `computeLevenshteinDistance` from fuzzy.ts: lowercase both strings, early
exits for equal / empty inputs, then the two-row DP; the result is the last
entry of the final row. -/
def computeLevenshteinDistance (a b : String) : Nat :=
  let left := a.data.map Char.toLower
  let right := b.data.map Char.toLower
  if left == right then 0
  else if left.length == 0 then right.length
  else if right.length == 0 then left.length
  else
    (levLoop right left 1 (List.range (right.length + 1))).getLastD 0

/-! ### Stable sorting and JS slice -/

/-- Insert `x` into `l` before the first element `y` with `le x y`; the
insertion step of a stable insertion sort. -/
def insertLe {α : Type} (le : α → α → Prop) [DecidableRel le] (x : α) :
    List α → List α
  | [] => [x]
  | y :: ys => if le x y then x :: y :: ys else y :: insertLe le x ys

/-- Stable insertion sort by `le`; embeds the (spec-mandated stable) JS
`Array.prototype.sort`. -/
def isortLe {α : Type} (le : α → α → Prop) [DecidableRel le] :
    List α → List α
  | [] => []
  | x :: xs => insertLe le x (isortLe le xs)

/-- JS `l.slice(0, e)`: a negative `e` counts from the end
(`max (l.length + e) 0`), a non-negative one is a plain prefix length. -/
def jsSliceTo {α : Type} (l : List α) (e : Int) : List α :=
  if e < 0 then l.take (l.length - (-e).toNat) else l.take e.toNat

/-- The scored intermediate of `findClosestMatches`. -/
structure Scored where
  value : String
  distance : Nat
deriving DecidableEq

/-- Comparison used by `scored.sort((a, b) => a.distance - b.distance)`. -/
def scoredLe (a b : Scored) : Prop := a.distance ≤ b.distance

instance : DecidableRel scoredLe := fun a b =>
  Nat.decLe a.distance b.distance

/-- Embedding of `findClosestMatches` from fuzzy.ts: score every candidate by distance to
the query, stable-sort ascending by score, keep `slice(0, maxResults)`, and
project back to the candidate strings. -/
def findClosestMatches (query : String) (candidates : List String)
    (maxResults : Int := 5) : List String :=
  let scored := candidates.map fun c =>
    Scored.mk c (computeLevenshteinDistance query c)
  let sorted := isortLe scoredLe scored
  (jsSliceTo sorted maxResults).map Scored.value

/-- The spec's contract for `rank`, stated from its words: the stable
ascending-by-distance sort of the candidates, truncated to the limit.  The
sort is characterized independently by `isortLe_perm`, `pairwise_isortLe`
and `filter_key_isortLe` (permutation, sortedness, stability). -/
def rankSpec (q : String) (cs : List String) (n : Nat) : List String :=
  (isortLe (fun a b =>
    computeLevenshteinDistance q a ≤ computeLevenshteinDistance q b) cs).take n

/-! ### BINARY collation

SQLite's default BINARY collation compares TEXT values by their UTF-8 bytes,
which orders strings lexicographically by code point.  Embedded directly on
the character lists so that concrete instances reduce in the kernel. -/

/-- Lexicographic-by-codepoint `≤` on character lists. -/
def leChars : List Char → List Char → Bool
  | [], _ => true
  | _ :: _, [] => false
  | a :: as, b :: bs =>
      if a < b then true else if b < a then false else leChars as bs

/-- BINARY-collation `≤` on strings, as used by every `ORDER BY` on a TEXT
column in the repository. -/
def strLe (a b : String) : Prop := leChars a.data b.data = true

instance : DecidableRel strLe := fun a b =>
  inferInstanceAs (Decidable (leChars a.data b.data = true))

/-! ### Catalog store -/

/-- The `cards` table: its rows in rowid (insertion) order. -/
abbrev DB := List Card

/-- First-occurrence deduplication, carrying the set of values already seen. -/
def dedupFirstAux {α : Type} [DecidableEq α] : List α → List α → List α
  | [], _ => []
  | x :: xs, seen =>
      if x ∈ seen then dedupFirstAux xs seen
      else x :: dedupFirstAux xs (x :: seen)

/-- First-occurrence deduplication of a list. -/
def dedupFirst {α : Type} [DecidableEq α] (l : List α) : List α :=
  dedupFirstAux l []

/-- Embedding of `SELECT DISTINCT name FROM cards WHERE p`.  SQL fixes no enumeration
order for DISTINCT; the embedding keeps first occurrences in row order, and
every theorem below about such a list is order-independent. -/
def selectDistinctNames (db : DB) (p : Card → Bool) : List String :=
  dedupFirst ((db.filter p).map Card.name)

/-- Embedding of `SELECT DISTINCT binder_name FROM cards WHERE p`. -/
def selectDistinctBinderNames (db : DB) (p : Card → Bool) : List String :=
  dedupFirst ((db.filter p).map Card.binderName)

/-- The SQL statements the repository issues against `cards`, abstracted to
their effect on the stored relation: a `SELECT` with some row predicate, the
import's `DELETE FROM cards`, or a single-row `INSERT`. -/
inductive SqlStmt where
  | select (p : Card → Bool)
  | deleteAll
  | insert (c : Card)

/-- Is the statement a read? -/
def SqlStmt.isSelect : SqlStmt → Bool
  | .select _ => true
  | _ => false

/-- Effect of one statement on the stored relation: a `SELECT` leaves it
unchanged, `DELETE FROM cards` empties it, `INSERT` appends a row. -/
def execStmt (db : DB) : SqlStmt → DB
  | .select _ => db
  | .deleteAll => []
  | .insert c => db ++ [c]

/-- Effect of a statement sequence, first to last. -/
def execStmts (db : DB) (stmts : List SqlStmt) : DB :=
  stmts.foldl execStmt db

/-- Statement sequence of `importCards`: inside one transaction,
`DELETE FROM cards` and then one `INSERT` per input card, in input order. -/
def importTrace (cards : List Card) : List SqlStmt :=
  SqlStmt.deleteAll :: cards.map SqlStmt.insert

/-- Embedding of `importCards` from db.ts: the stored relation after replaying its
delete-then-insert-each statement sequence. -/
def importCards (db : DB) (cards : List Card) : DB :=
  execStmts db (importTrace cards)

/-! ### Query resolver (`searchCardsByName`, `listDecks`, `getDeckCards`) -/

/-- WHERE clause of the phase-1 `SELECT DISTINCT name` pre-filter:
`name LIKE '%q%'`, plus `binder_type = ?` when a scope is given. -/
def phase1Pred (query : String) (bt : Option BinderType) : Card → Bool :=
  match bt with
  | some b => fun c => nameLike query c && c.binderType == b
  | none => fun c => nameLike query c

/-- The `binder_type` filter of the final row fetch (`true` when no scope was
requested). -/
def typePred (bt : Option BinderType) : Card → Bool :=
  match bt with
  | some b => fun c => c.binderType == b
  | none => fun _ => true

/-- Phases 1–3 of `searchCardsByName`: the resolved (`matchedNames`) list.
Phase 1 ranks the LIKE pre-filter hits when there are any.  Otherwise, with a
scope given, an unscoped LIKE probe decides between the scope-mismatch empty
result and a scoped full scan; with no scope, the full distinct-name scan is
ranked (the typo-correction path).  The source's early `return []` on the
scope mismatch is encoded as an empty `matchedNames`, which the caller turns
into the same empty result. -/
def searchMatchedNames (db : DB) (query : String) (limit : Int)
    (bt : Option BinderType) : List String :=
  let likeResults := selectDistinctNames db (phase1Pred query bt)
  if likeResults.length > 0 then
    findClosestMatches query likeResults limit
  else
    match bt with
    | some b =>
        if (selectDistinctNames db (fun c => nameLike query c)).length > 0 then
          []
        else
          findClosestMatches query
            (selectDistinctNames db (fun c => c.binderType == b)) limit
    | none =>
        findClosestMatches query (selectDistinctNames db (fun _ => true)) limit

/-- The final row fetch:
`WHERE name IN matchedNames [AND binder_type = ?]
 ORDER BY CASE name <rank position> END, set_name`.
Sorting by (rank position of the name, `set_name`) is realized as: for each
matched name in rank order, its rows sorted by `set_name` under BINARY
collation. -/
def fetchRowsRanked (db : DB) (names : List String)
    (bt : Option BinderType) : List Card :=
  names.flatMap fun n =>
    isortLe (fun a b : Card => strLe a.setName b.setName)
      (db.filter fun c => c.name == n && typePred bt c)

/-- Embedding of `searchCardsByName` from db.ts (the current version, with the optional
`binderType` scope filter): resolve names through the two-phase strategy,
return `[]` when nothing resolved, else fetch the rows in rank order and
project them to summaries. -/
def searchCardsByName (db : DB) (query : String) (limit : Int := 5)
    (bt : Option BinderType := none) : List CardSummary :=
  let matchedNames := searchMatchedNames db query limit bt
  if matchedNames.length = 0 then []
  else (fetchRowsRanked db matchedNames bt).map cardToSummary

/-- The statement sequence a `searchCardsByName` call executes, in order:
the phase-1 SELECT; on zero pre-filter hits the fallback SELECT(s); and,
when any name resolved, the final row-fetch SELECT. -/
def searchTrace (db : DB) (query : String) (limit : Int)
    (bt : Option BinderType) : List SqlStmt :=
  [SqlStmt.select (phase1Pred query bt)] ++
  (if (selectDistinctNames db (phase1Pred query bt)).length > 0 then []
   else
     match bt with
     | some b =>
         SqlStmt.select (fun c => nameLike query c) ::
         (if (selectDistinctNames db (fun c => nameLike query c)).length > 0
          then []
          else [SqlStmt.select (fun c => c.binderType == b)])
     | none => [SqlStmt.select (fun _ => true)]) ++
  (if (searchMatchedNames db query limit bt).length = 0 then []
   else [SqlStmt.select (fun c =>
          (searchMatchedNames db query limit bt).contains c.name &&
            typePred bt c)])

/-- Embedding of `listDecks` from db.ts:
`SELECT binder_name, SUM(quantity) ... WHERE binder_type = 'deck'
 GROUP BY binder_name ORDER BY binder_name`. -/
def listDecks (db : DB) : List Deck :=
  let deckRows := db.filter fun c => c.binderType == BinderType.deck
  (isortLe strLe (dedupFirst (deckRows.map Card.binderName))).map fun n =>
    { name := n
      cardCount :=
        ((deckRows.filter fun c => c.binderName == n).map Card.quantity).sum }

/-- The single statement a `listDecks` call executes. -/
def listDecksTrace : List SqlStmt :=
  [SqlStmt.select (fun c => c.binderType == BinderType.deck)]

/-- Result record of `getDeckCards`. -/
structure DeckCardsResult where
  resolvedName : String
  cards : List CardSummary
deriving DecidableEq

/-- Embedding of `SELECT DISTINCT binder_name FROM cards WHERE binder_type = 'deck'`. -/
def deckNamesOf (db : DB) : List String :=
  selectDistinctBinderNames db (fun c => c.binderType == BinderType.deck)

/-- Embedding of `getDeckCards` from db.ts: enumerate the deck names (none → null), take
the single best fuzzy match for the requested name, and return that deck's
rows ordered by card name.  JavaScript's `if (!resolvedName) return null`
is falsy both for a missing match and for the empty-string name, so both
cases yield null. -/
def getDeckCards (db : DB) (deckName : String) : Option DeckCardsResult :=
  let allDeckNames := deckNamesOf db
  if allDeckNames.length = 0 then none
  else
    match (findClosestMatches deckName allDeckNames 1).head? with
    | none => none
    | some r =>
        if r = "" then none
        else
          some { resolvedName := r
                 cards :=
                   (isortLe (fun a b : Card => strLe a.name b.name)
                     (db.filter fun c =>
                       c.binderType == BinderType.deck &&
                       c.binderName == r)).map cardToSummary }

/-- The statement sequence a `getDeckCards` call executes: the deck-name
SELECT, then — only when a deck was resolved — the contents SELECT. -/
def deckTrace (db : DB) (deckName : String) : List SqlStmt :=
  SqlStmt.select (fun c => c.binderType == BinderType.deck) ::
  (match getDeckCards db deckName with
   | none => []
   | some res =>
       [SqlStmt.select (fun c =>
         c.binderType == BinderType.deck && c.binderName == res.resolvedName)])

/-- Sample record builder used by the concrete scenario catalogs (payload
fields mirror a typical ManaBox CSV row). -/
def sampleCard (bn : String) (bt : BinderType) (nm : String) (sn : String)
    (q : Int) : Card :=
  { binderName := bn
    binderType := bt
    name := nm
    setCode := "C21"
    setName := sn
    collectorNumber := "188"
    foil := "normal"
    rarity := "uncommon"
    quantity := q
    manaboxId := 58604
    scryfallId := "aaaa-bbbb"
    purchasePrice := 0
    misprint := false
    altered := false
    condition := "near_mint"
    language := "en"
    purchasePriceCurrency := "USD" }

/-- Scenario A catalog: two printings of one name, one per scope. -/
def dbScenarioA : DB :=
  [sampleCard "Boxed" BinderType.binder "Sol Ring" "Commander 2021" 1,
   sampleCard "Zurgo" BinderType.deck "Sol Ring" "Tarkir: Dragonstorm Commander" 1]

/-- Scenario B catalog: the name exists only in the collection scope. -/
def dbScenarioB : DB :=
  [sampleCard "Boxed" BinderType.binder "Counterspell" "Commander 2021" 1]

/-- Scenario C catalog: a single name, queried with a typo. -/
def dbScenarioC : DB :=
  [sampleCard "Boxed" BinderType.binder "Swords to Plowshares" "Commander 2021" 1]

/-- One card of the Karrthus deck in scenario E. -/
def cardKarrthus1 : Card :=
  sampleCard "Karrthus BRG" BinderType.deck "k1" "S1" 1

/-- Scenario E catalog: two decks, three and two cards. -/
def dbScenarioE : DB :=
  [sampleCard "Zurgo" BinderType.deck "c1" "S1" 1,
   sampleCard "Zurgo" BinderType.deck "a2" "S1" 1,
   sampleCard "Zurgo" BinderType.deck "b3" "S1" 1,
   cardKarrthus1,
   sampleCard "Karrthus BRG" BinderType.deck "k2" "S1" 1]

/-- Catalog whose only deck has the empty string as its name. -/
def dbEmptyDeckName : DB :=
  [sampleCard "" BinderType.deck "Some Card" "S1" 1]

end Mtcg

namespace Mtcg

section SortLemmas

variable {α : Type} (le : α → α → Prop) [DecidableRel le]

theorem insertLe_perm (x : α) (l : List α) :
    (insertLe le x l).Perm (x :: l) := by
  induction l with
  | nil => simp [insertLe]
  | cons y ys ih =>
      by_cases h : le x y
      · simp [insertLe, h]
      · simp only [insertLe, if_neg h]
        exact (ih.cons y).trans (List.Perm.swap x y ys)

theorem isortLe_perm (l : List α) : (isortLe le l).Perm l := by
  induction l with
  | nil => simp [isortLe]
  | cons x xs ih =>
      exact (insertLe_perm le x (isortLe le xs)).trans (ih.cons x)

theorem mem_insertLe {x y : α} {l : List α} :
    y ∈ insertLe le x l ↔ y = x ∨ y ∈ l := by
  rw [(insertLe_perm le x l).mem_iff]
  simp

theorem pairwise_insertLe (htot : ∀ a b, le a b ∨ le b a)
    (htr : ∀ {a b c}, le a b → le b c → le a c) (x : α) {l : List α}
    (h : l.Pairwise le) : (insertLe le x l).Pairwise le := by
  induction l with
  | nil => simp [insertLe]
  | cons y ys ih =>
      rcases List.pairwise_cons.mp h with ⟨hy, hys⟩
      by_cases hxy : le x y
      · simp only [insertLe, if_pos hxy]
        refine List.pairwise_cons.mpr ⟨?_, h⟩
        intro z hz
        rcases List.mem_cons.mp hz with rfl | hz
        · exact hxy
        · exact htr hxy (hy z hz)
      · simp only [insertLe, if_neg hxy]
        refine List.pairwise_cons.mpr ⟨?_, ih hys⟩
        intro z hz
        rcases (mem_insertLe le).mp hz with rfl | hz
        · exact (htot z y).resolve_left hxy
        · exact hy z hz

theorem pairwise_isortLe (htot : ∀ a b, le a b ∨ le b a)
    (htr : ∀ {a b c}, le a b → le b c → le a c) (l : List α) :
    (isortLe le l).Pairwise le := by
  induction l with
  | nil => simp [isortLe]
  | cons x xs ih =>
      simp only [isortLe]
      exact pairwise_insertLe le htot htr x ih

theorem isortLe_nodup {l : List α} (h : l.Nodup) : (isortLe le l).Nodup :=
  ((isortLe_perm le l).nodup_iff).mpr h

theorem insertLe_map {β : Type} (le' : β → β → Prop) [DecidableRel le']
    (f : α → β) (hf : ∀ a b, le' (f a) (f b) ↔ le a b) (x : α) (l : List α) :
    insertLe le' (f x) (l.map f) = (insertLe le x l).map f := by
  induction l with
  | nil => simp [insertLe]
  | cons y ys ih =>
      by_cases h : le x y
      · simp only [List.map_cons, insertLe, if_pos h, if_pos ((hf x y).mpr h)]
      · simp only [List.map_cons, insertLe, if_neg h,
          if_neg (fun hh => h ((hf x y).mp hh))]
        exact congrArg _ ih

theorem isortLe_map {β : Type} (le' : β → β → Prop) [DecidableRel le']
    (f : α → β) (hf : ∀ a b, le' (f a) (f b) ↔ le a b) (l : List α) :
    isortLe le' (l.map f) = (isortLe le l).map f := by
  induction l with
  | nil => simp [isortLe]
  | cons x xs ih =>
      simp only [List.map_cons, isortLe]
      rw [ih, insertLe_map le le' f hf]

end SortLemmas

section KeyLemmas

variable {α : Type} (k : α → Nat)

theorem filter_key_insertLe (x : α) (l : List α) (d : Nat) :
    (insertLe (fun a b => k a ≤ k b) x l).filter (fun c => k c == d) =
      if k x = d then x :: l.filter (fun c => k c == d)
      else l.filter (fun c => k c == d) := by
  induction l with
  | nil =>
      simp only [insertLe, List.filter_cons, List.filter_nil]
      by_cases h : k x = d
      · simp [h]
      · simp [h]
  | cons y ys ih =>
      by_cases hxy : k x ≤ k y
      · simp only [insertLe, if_pos hxy, List.filter_cons]
        by_cases h : k x = d
        · simp [h]
        · simp [h]
      · have hyx : k y < k x := Nat.lt_of_not_le hxy
        simp only [insertLe, if_neg hxy, List.filter_cons, ih]
        by_cases h : k x = d
        · have hy : ¬ (k y = d) := by omega
          simp [h, hy]
        · by_cases hy : k y = d
          · simp [h, hy]
          · simp [h, hy]

theorem filter_key_isortLe (l : List α) (d : Nat) :
    (isortLe (fun a b => k a ≤ k b) l).filter (fun c => k c == d) =
      l.filter (fun c => k c == d) := by
  induction l with
  | nil => simp [isortLe]
  | cons x xs ih =>
      simp only [isortLe]
      rw [filter_key_insertLe]
      by_cases h : k x = d <;> simp [List.filter_cons, h, ih]

theorem isortLe_head_min {l : List α} {x : α} {rest : List α}
    (h : isortLe (fun a b => k a ≤ k b) l = x :: rest) :
    ∀ c ∈ l, k x ≤ k c := by
  intro c hc
  have hp := pairwise_isortLe (fun a b => k a ≤ k b)
    (fun a b => Nat.le_total (k a) (k b))
    (fun hab hbc => Nat.le_trans hab hbc) l
  rw [h, List.pairwise_cons] at hp
  have hmem : c ∈ x :: rest := by
    rw [← h]
    exact ((isortLe_perm _ l).mem_iff).mpr hc
  rcases List.mem_cons.mp hmem with rfl | hmem
  · exact Nat.le_refl _
  · exact hp.1 c hmem

end KeyLemmas

end Mtcg

namespace Mtcg

section StrLemmas

theorem leChars_cons {a b : Char} {as bs : List Char} :
    leChars (a :: as) (b :: bs) = true ↔
      a < b ∨ (a = b ∧ leChars as bs = true) := by
  by_cases h1 : a < b
  · simp [leChars, h1]
  · by_cases h2 : b < a
    · have hne : ¬ a = b := fun h => absurd (h ▸ h2) (lt_irrefl a)
      simp [leChars, h1, h2, hne]
    · have heq : a = b := le_antisymm (not_lt.mp h2) (not_lt.mp h1)
      simp [leChars, h1, h2, heq]

theorem leChars_total (l1 l2 : List Char) :
    leChars l1 l2 = true ∨ leChars l2 l1 = true := by
  induction l1 generalizing l2 with
  | nil => left; rfl
  | cons a as ih =>
      cases l2 with
      | nil => right; rfl
      | cons b bs =>
          rcases lt_trichotomy a b with h | h | h
          · left; exact leChars_cons.mpr (Or.inl h)
          · rcases ih bs with h' | h'
            · left; exact leChars_cons.mpr (Or.inr ⟨h, h'⟩)
            · right; exact leChars_cons.mpr (Or.inr ⟨h.symm, h'⟩)
          · right; exact leChars_cons.mpr (Or.inl h)

theorem leChars_trans {l1 l2 l3 : List Char} (h1 : leChars l1 l2 = true)
    (h2 : leChars l2 l3 = true) : leChars l1 l3 = true := by
  induction l1 generalizing l2 l3 with
  | nil => rfl
  | cons a as ih =>
      cases l2 with
      | nil => simp [leChars] at h1
      | cons b bs =>
          cases l3 with
          | nil => simp [leChars] at h2
          | cons c cs =>
              rcases leChars_cons.mp h1 with hab | ⟨hab, h1'⟩ <;>
                rcases leChars_cons.mp h2 with hbc | ⟨hbc, h2'⟩
              · exact leChars_cons.mpr (Or.inl (hab.trans hbc))
              · exact leChars_cons.mpr (Or.inl (by rw [← hbc]; exact hab))
              · exact leChars_cons.mpr (Or.inl (by rw [hab]; exact hbc))
              · exact leChars_cons.mpr (Or.inr ⟨hab.trans hbc, ih h1' h2'⟩)

theorem strLe_total (a b : String) : strLe a b ∨ strLe b a :=
  leChars_total a.data b.data

theorem strLe_trans {a b c : String} (h1 : strLe a b) (h2 : strLe b c) :
    strLe a c :=
  leChars_trans h1 h2

end StrLemmas

section RankLemmas

theorem jsSliceTo_map {α β : Type} (f : α → β) (l : List α) (e : Int) :
    jsSliceTo (l.map f) e = (jsSliceTo l e).map f := by
  unfold jsSliceTo
  rw [List.length_map]
  split <;> rw [List.map_take]

theorem jsSliceTo_of_nonneg {α : Type} (l : List α) (e : Int) (h : 0 ≤ e) :
    jsSliceTo l e = l.take e.toNat := by
  unfold jsSliceTo
  rw [if_neg (not_lt.mpr h)]

theorem jsSliceTo_of_neg {α : Type} (l : List α) (e : Int) (h : e < 0) :
    jsSliceTo l e = l.take (l.length - (-e).toNat) := by
  unfold jsSliceTo
  rw [if_pos h]

/-- The distance-to-query comparison that orders candidates in the ranking
phase. -/
theorem findClosestMatches_eq_slice (q : String) (cs : List String) (n : Int) :
    findClosestMatches q cs n =
      jsSliceTo
        (isortLe (fun a b =>
          computeLevenshteinDistance q a ≤ computeLevenshteinDistance q b) cs)
        n := by
  unfold findClosestMatches
  dsimp only
  rw [isortLe_map
      (fun a b =>
        computeLevenshteinDistance q a ≤ computeLevenshteinDistance q b)
      scoredLe
      (fun c => Scored.mk c (computeLevenshteinDistance q c))
      (fun a b => Iff.rfl)]
  rw [jsSliceTo_map, List.map_map,
    show (Scored.value ∘ fun c => Scored.mk c (computeLevenshteinDistance q c))
        = (id : String → String) from rfl,
    List.map_id]

end RankLemmas

end Mtcg

namespace Mtcg


theorem findClosestMatches_eq_rankSpec (q : String) (cs : List String)
    (n : Int) (h : 0 ≤ n) :
    findClosestMatches q cs n = rankSpec q cs n.toNat := by
  rw [findClosestMatches_eq_slice, jsSliceTo_of_nonneg _ _ h, rankSpec]

theorem findClosestMatches_of_neg (q : String) (cs : List String)
    (n : Int) (h : n < 0) :
    findClosestMatches q cs n = rankSpec q cs (cs.length - (-n).toNat) := by
  rw [findClosestMatches_eq_slice, jsSliceTo_of_neg _ _ h, rankSpec,
    (isortLe_perm _ cs).length_eq]

theorem rankSpec_length_le (q : String) (cs : List String) (n : Nat) :
    (rankSpec q cs n).length ≤ n := by
  rw [rankSpec, List.length_take]
  exact Nat.min_le_left _ _

theorem rankSpec_subset (q : String) (cs : List String) (n : Nat) :
    ∀ x ∈ rankSpec q cs n, x ∈ cs := by
  intro x hx
  exact ((isortLe_perm _ cs).mem_iff).mp (List.take_subset n _ hx)

theorem rankSpec_ne_nil (q : String) (cs : List String) (n : Nat)
    (hcs : cs ≠ []) (hn : 1 ≤ n) : rankSpec q cs n ≠ [] := by
  intro h
  have hl := congrArg List.length h
  rw [rankSpec, List.length_take, (isortLe_perm _ cs).length_eq,
    List.length_nil] at hl
  have h0 : cs.length ≠ 0 := fun hh => hcs (List.eq_nil_of_length_eq_zero hh)
  rw [Nat.min_def] at hl
  split at hl <;> omega

theorem rankSpec_head_min (q : String) (cs : List String) (n : Nat)
    (x : String) (rest : List String) (h : rankSpec q cs n = x :: rest) :
    ∀ c ∈ cs, computeLevenshteinDistance q x ≤ computeLevenshteinDistance q c := by
  rw [rankSpec] at h
  cases hs : isortLe (fun a b =>
      computeLevenshteinDistance q a ≤ computeLevenshteinDistance q b) cs with
  | nil => rw [hs] at h; simp at h
  | cons y t =>
      rw [hs] at h
      cases n with
      | zero => simp at h
      | succ m =>
          rw [List.take_succ_cons] at h
          have hx : x = y := (List.cons.injEq _ _ _ _ ▸ h).1.symm
          subst hx
          exact isortLe_head_min (computeLevenshteinDistance q) hs

section DedupLemmas

variable {α : Type} [DecidableEq α]

theorem mem_dedupFirstAux {l seen : List α} {a : α} :
    a ∈ dedupFirstAux l seen ↔ a ∈ l ∧ a ∉ seen := by
  induction l generalizing seen with
  | nil => simp [dedupFirstAux]
  | cons x xs ih =>
      by_cases hx : x ∈ seen
      · rw [dedupFirstAux, if_pos hx, ih]
        constructor
        · rintro ⟨h1, h2⟩
          exact ⟨List.mem_cons_of_mem x h1, h2⟩
        · rintro ⟨h1, h2⟩
          rcases List.mem_cons.mp h1 with rfl | h1
          · exact absurd hx h2
          · exact ⟨h1, h2⟩
      · rw [dedupFirstAux, if_neg hx]
        constructor
        · intro h
          rcases List.mem_cons.mp h with rfl | h
          · exact ⟨List.mem_cons_self _ _, hx⟩
          · have h' := ih.mp h
            exact ⟨List.mem_cons_of_mem _ h'.1,
              fun hs => h'.2 (List.mem_cons_of_mem _ hs)⟩
        · rintro ⟨h1, h2⟩
          by_cases hax : a = x
          · subst hax
            exact List.mem_cons_self _ _
          · rcases List.mem_cons.mp h1 with rfl | h1
            · exact absurd rfl hax
            · refine List.mem_cons_of_mem _ (ih.mpr ⟨h1, ?_⟩)
              intro hs
              rcases List.mem_cons.mp hs with rfl | hs
              · exact hax rfl
              · exact h2 hs

theorem mem_dedupFirst {l : List α} {a : α} :
    a ∈ dedupFirst l ↔ a ∈ l := by
  rw [dedupFirst, mem_dedupFirstAux]
  simp

theorem nodup_dedupFirstAux (l seen : List α) :
    (dedupFirstAux l seen).Nodup := by
  induction l generalizing seen with
  | nil => simp [dedupFirstAux]
  | cons x xs ih =>
      by_cases hx : x ∈ seen
      · rw [dedupFirstAux, if_pos hx]
        exact ih seen
      · rw [dedupFirstAux, if_neg hx]
        refine List.nodup_cons.mpr ⟨?_, ih _⟩
        intro hmem
        exact (mem_dedupFirstAux.mp hmem).2 (List.mem_cons_self x seen)

theorem nodup_dedupFirst (l : List α) : (dedupFirst l).Nodup :=
  nodup_dedupFirstAux l []

theorem dedupFirst_eq_nil {l : List α} : dedupFirst l = [] ↔ l = [] := by
  constructor
  · intro h
    cases l with
    | nil => rfl
    | cons x xs =>
        have : x ∈ dedupFirst (x :: xs) :=
          mem_dedupFirst.mpr (List.mem_cons_self _ _)
        rw [h] at this
        cases this
  · rintro rfl
    rfl

end DedupLemmas

theorem mem_selectDistinctNames {db : DB} {p : Card → Bool} {s : String} :
    s ∈ selectDistinctNames db p ↔ ∃ c ∈ db, p c = true ∧ c.name = s := by
  rw [selectDistinctNames, mem_dedupFirst, List.mem_map]
  constructor
  · rintro ⟨c, hc, rfl⟩
    rcases List.mem_filter.mp hc with ⟨h1, h2⟩
    exact ⟨c, h1, h2, rfl⟩
  · rintro ⟨c, h1, h2, rfl⟩
    exact ⟨c, List.mem_filter.mpr ⟨h1, h2⟩, rfl⟩

theorem selectDistinctNames_eq_nil {db : DB} {p : Card → Bool} :
    selectDistinctNames db p = [] ↔ ∀ c ∈ db, p c = false := by
  constructor
  · intro h c hc
    by_contra hpc
    have hp : p c = true := by
      cases hpc' : p c
      · exact absurd hpc' hpc
      · rfl
    have : c.name ∈ selectDistinctNames db p :=
      mem_selectDistinctNames.mpr ⟨c, hc, hp, rfl⟩
    rw [h] at this
    cases this
  · intro h
    rw [selectDistinctNames, dedupFirst_eq_nil, List.map_eq_nil_iff,
      List.filter_eq_nil_iff]
    intro c hc
    rw [h c hc]
    simp

theorem mem_selectDistinctBinderNames {db : DB} {p : Card → Bool} {s : String} :
    s ∈ selectDistinctBinderNames db p ↔
      ∃ c ∈ db, p c = true ∧ c.binderName = s := by
  rw [selectDistinctBinderNames, mem_dedupFirst, List.mem_map]
  constructor
  · rintro ⟨c, hc, rfl⟩
    rcases List.mem_filter.mp hc with ⟨h1, h2⟩
    exact ⟨c, h1, h2, rfl⟩
  · rintro ⟨c, h1, h2, rfl⟩
    exact ⟨c, List.mem_filter.mpr ⟨h1, h2⟩, rfl⟩

end Mtcg

namespace Mtcg

theorem findClosestMatches_length_le (q : String) (cs : List String)
    (n : Int) (h : 0 ≤ n) :
    (findClosestMatches q cs n).length ≤ n.toNat := by
  rw [findClosestMatches_eq_rankSpec q cs n h]
  exact rankSpec_length_le _ _ _

theorem findClosestMatches_subset (q : String) (cs : List String)
    (n : Int) (h : 0 ≤ n) :
    ∀ x ∈ findClosestMatches q cs n, x ∈ cs := by
  rw [findClosestMatches_eq_rankSpec q cs n h]
  exact rankSpec_subset _ _ _

theorem findClosestMatches_ne_nil (q : String) (cs : List String)
    (n : Int) (hcs : cs ≠ []) (hn : 1 ≤ n) :
    findClosestMatches q cs n ≠ [] := by
  rw [findClosestMatches_eq_rankSpec q cs n (by omega)]
  exact rankSpec_ne_nil q cs n.toNat hcs (by omega)

theorem findClosestMatches_head_min (q : String) (cs : List String)
    (n : Int) (h : 0 ≤ n) (x : String) (rest : List String)
    (hx : findClosestMatches q cs n = x :: rest) :
    ∀ c ∈ cs, computeLevenshteinDistance q x ≤ computeLevenshteinDistance q c := by
  rw [findClosestMatches_eq_rankSpec q cs n h] at hx
  exact rankSpec_head_min q cs n.toNat x rest hx

theorem searchMatchedNames_length_le (db : DB) (q : String)
    (bt : Option BinderType) (n : Int) (h : 0 ≤ n) :
    (searchMatchedNames db q n bt).length ≤ n.toNat := by
  cases bt with
  | none =>
      rw [searchMatchedNames]
      split
      · exact findClosestMatches_length_le _ _ _ h
      · exact findClosestMatches_length_le _ _ _ h
  | some b =>
      rw [searchMatchedNames]
      split
      · exact findClosestMatches_length_le _ _ _ h
      · split
        · simp
        · exact findClosestMatches_length_le _ _ _ h

theorem searchMatchedNames_mem_name (db : DB) (q : String) (n : Int)
    (h : 0 ≤ n) (x : String) (hx : x ∈ searchMatchedNames db q n none) :
    ∃ c ∈ db, c.name = x := by
  rw [searchMatchedNames] at hx
  split at hx
  · have hmem := findClosestMatches_subset _ _ _ h x hx
    rcases mem_selectDistinctNames.mp hmem with ⟨c, hc, _, hname⟩
    exact ⟨c, hc, hname⟩
  · have hmem := findClosestMatches_subset _ _ _ h x hx
    rcases mem_selectDistinctNames.mp hmem with ⟨c, hc, _, hname⟩
    exact ⟨c, hc, hname⟩

theorem mem_fetchRowsRanked {db : DB} {names : List String}
    {bt : Option BinderType} {c : Card}
    (h : c ∈ fetchRowsRanked db names bt) : c.name ∈ names := by
  rw [fetchRowsRanked] at h
  rcases List.mem_flatMap.mp h with ⟨nm, hnm, hc⟩
  have hmem := ((isortLe_perm _ _).mem_iff).mp hc
  rcases List.mem_filter.mp hmem with ⟨_, hpred⟩
  have hname : c.name = nm := by
    have h' := hpred
    simp only [Bool.and_eq_true, beq_iff_eq] at h'
    exact h'.1
  rw [hname]
  exact hnm

theorem fetchRowsRanked_ne_nil {db : DB} {nm : String} {rest : List String}
    (hrow : ∃ c ∈ db, c.name = nm) :
    fetchRowsRanked db (nm :: rest) none ≠ [] := by
  rw [fetchRowsRanked, List.flatMap_cons]
  intro h
  rcases hrow with ⟨c, hc, hname⟩
  have hmem : c ∈ db.filter (fun c => c.name == nm && typePred none c) :=
    List.mem_filter.mpr ⟨hc, by simp [typePred, hname]⟩
  have hs : c ∈ isortLe (fun a b : Card => strLe a.setName b.setName)
      (db.filter (fun c => c.name == nm && typePred none c)) :=
    ((isortLe_perm _ _).mem_iff).mpr hmem
  rw [(List.append_eq_nil.mp h).1] at hs
  cases hs

theorem execStmts_inserts (base : DB) (cards : List Card) :
    execStmts base (cards.map SqlStmt.insert) = base ++ cards := by
  induction cards generalizing base with
  | nil => simp [execStmts]
  | cons c cs ih =>
      rw [List.map_cons, execStmts, List.foldl_cons]
      have : execStmt base (SqlStmt.insert c) = base ++ [c] := rfl
      rw [this]
      have := ih (base ++ [c])
      rw [execStmts] at this
      rw [this, List.append_assoc]
      rfl

theorem importCards_eq (db : DB) (cards : List Card) :
    importCards db cards = cards := by
  rw [importCards, importTrace, execStmts, List.foldl_cons]
  have h1 : execStmt db SqlStmt.deleteAll = [] := rfl
  rw [h1]
  have := execStmts_inserts [] cards
  rw [execStmts] at this
  rw [this]
  rfl

theorem deckNamesOf_eq_nil {db : DB} :
    deckNamesOf db = [] ↔
      db.filter (fun c => c.binderType == BinderType.deck) = [] := by
  rw [deckNamesOf, selectDistinctBinderNames, dedupFirst_eq_nil,
    List.map_eq_nil_iff]

/-- Claim C8: for every string `a`, the case-insensitive Levenshtein distance
satisfies `distance("", a) = length a` and `distance(a, "") = length a`;
both follow from the early-exit guards of `computeLevenshteinDistance`. -/
theorem computeLevenshteinDistance_empty_left_right (a : String) :
    computeLevenshteinDistance "" a = a.length ∧
    computeLevenshteinDistance a "" = a.length := by
  have hlen : a.length = a.data.length := rfl
  constructor
  · rw [computeLevenshteinDistance]
    dsimp only
    by_cases h : a.data = []
    · simp only [h, List.map_nil]
      rw [if_pos (by decide : (([] : List Char) == []) = true), hlen, h]
      rfl
    · have hmap : List.map Char.toLower a.data ≠ [] := by
        simpa [List.map_eq_nil_iff] using h
      simp only [List.map_nil, List.length_nil]
      have hc1 : ¬ (([] : List Char) == List.map Char.toLower a.data) = true := by
        simp only [beq_iff_eq]
        intro heq
        exact hmap heq.symm
      rw [if_neg hc1, if_pos (by decide : ((0 : Nat) == 0) = true), List.length_map]
      exact hlen.symm
  · rw [computeLevenshteinDistance]
    dsimp only
    by_cases h : a.data = []
    · simp only [h, List.map_nil]
      rw [if_pos (by decide : (([] : List Char) == []) = true), hlen, h]
      rfl
    · have hmap : List.map Char.toLower a.data ≠ [] := by
        simpa [List.map_eq_nil_iff] using h
      simp only [List.map_nil, List.length_nil]
      have hc1 : ¬ (List.map Char.toLower a.data == ([] : List Char)) = true := by
        simp only [beq_iff_eq]
        exact hmap
      have hc2 : ¬ ((List.map Char.toLower a.data).length == 0) = true := by
        simp only [beq_iff_eq, List.length_map, List.length_eq_zero]
        exact h
      rw [if_neg hc1, if_neg hc2, if_pos (by decide : ((0 : Nat) == 0) = true), List.length_map]
      exact hlen.symm

end Mtcg

namespace Mtcg


/-- Claim C1: scope-mismatch policy.  When a scope filter is given, no name
within that scope matches the query's LIKE pattern, but at least one name in
the catalog (ignoring scope) does, `searchCardsByName` returns the empty
sequence — it never substitutes fuzzy suggestions from the other scope. -/
theorem searchCardsByName_scope_mismatch_empty (db : DB) (q : String)
    (n : Int) (b : BinderType)
    (h1 : ∀ c ∈ db, c.binderType = b → nameLike q c = false)
    (h2 : ∃ c ∈ db, nameLike q c = true) :
    searchCardsByName db q n (some b) = [] := by
  have hlike : selectDistinctNames db (phase1Pred q (some b)) = [] := by
    rw [selectDistinctNames_eq_nil]
    intro c hc
    rw [phase1Pred]
    by_cases hb : c.binderType = b
    · simp [h1 c hc hb]
    · simp [hb]
  have hun : selectDistinctNames db (fun c => nameLike q c) ≠ [] := by
    rcases h2 with ⟨c, hc, hn⟩
    intro hnil
    rw [selectDistinctNames_eq_nil] at hnil
    rw [hnil c hc] at hn
    cases hn
  have hmn : searchMatchedNames db q n (some b) = [] := by
    rw [searchMatchedNames, hlike]
    simp [List.length_pos.mpr hun]
  rw [searchCardsByName, hmn]
  simp

/-- Witness for C1: scenario B — `Counterspell` exists only in the binder
scope, so a deck-scoped search for it returns nothing. -/
theorem searchCardsByName_scope_mismatch_empty_witness :
    searchCardsByName dbScenarioB "Counterspell" 5 (some BinderType.deck) = [] :=
  searchCardsByName_scope_mismatch_empty dbScenarioB "Counterspell" 5
    BinderType.deck (by decide) (by decide)

/-- Claim C3: rank contract.  For limit `n ≥ 1`, `findClosestMatches` returns
exactly the stable ascending-by-distance sort of the candidates truncated to
`n` items (`rankSpec`); that sort is a permutation of the candidates, is
sorted by distance to the query, and preserves the original relative order
inside every equal-distance class; hence at most `n` items come back and a
first returned item has minimum distance among all candidates. -/
theorem findClosestMatches_rank_contract (q : String) (cs : List String)
    (n : Int) (h : 1 ≤ n) :
    findClosestMatches q cs n = rankSpec q cs n.toNat ∧
    (isortLe (fun a b =>
      computeLevenshteinDistance q a ≤ computeLevenshteinDistance q b) cs).Perm
      cs ∧
    (isortLe (fun a b =>
      computeLevenshteinDistance q a ≤ computeLevenshteinDistance q b)
      cs).Pairwise (fun a b =>
        computeLevenshteinDistance q a ≤ computeLevenshteinDistance q b) ∧
    (∀ d, (isortLe (fun a b =>
        computeLevenshteinDistance q a ≤ computeLevenshteinDistance q b)
        cs).filter (fun c => computeLevenshteinDistance q c == d) =
      cs.filter (fun c => computeLevenshteinDistance q c == d)) ∧
    (findClosestMatches q cs n).length ≤ n.toNat ∧
    (∀ x rest, findClosestMatches q cs n = x :: rest →
      ∀ c ∈ cs,
        computeLevenshteinDistance q x ≤ computeLevenshteinDistance q c) := by
  have h0 : (0 : Int) ≤ n := by omega
  refine ⟨findClosestMatches_eq_rankSpec q cs n h0, isortLe_perm _ cs,
    pairwise_isortLe (fun a b =>
        computeLevenshteinDistance q a ≤ computeLevenshteinDistance q b)
      (fun a b => Nat.le_total _ _)
      (fun hab hbc => Nat.le_trans hab hbc) cs,
    fun d => filter_key_isortLe (computeLevenshteinDistance q) cs d,
    findClosestMatches_length_le q cs n h0,
    fun x rest hx => ?_⟩
  rw [findClosestMatches_eq_rankSpec q cs n h0] at hx
  exact rankSpec_head_min q cs n.toNat x rest hx

/-- Witness for C3 at a concrete query, candidate list and limit. -/
theorem findClosestMatches_rank_contract_witness :
    findClosestMatches "Lightning" ["Lightning Bolt", "Sol Ring"] 3 =
      rankSpec "Lightning" ["Lightning Bolt", "Sol Ring"] (3 : Int).toNat :=
  (findClosestMatches_rank_contract "Lightning" ["Lightning Bolt", "Sol Ring"]
    3 (by decide)).1

/-- Counterexample for C4: with the negative limit `-1`, `findClosestMatches`
does not return the empty sequence — JavaScript's `slice(0, -1)` drops only
the final element. -/
theorem findClosestMatches_neg_limit_counterexample :
    ¬ (findClosestMatches "a" ["a", "b"] (-1) = []) := by decide

/-- Claim C4 (amended): a limit of `0` yields no results, and a negative
limit `n` yields the stable ascending sort truncated to
`max 0 (count + n)` items — so the empty sequence exactly when the candidate
count is at most `-n`, but not in general. -/
theorem findClosestMatches_nonpos_limit (q : String) (cs : List String)
    (n : Int) (h : n ≤ 0) :
    (findClosestMatches q cs n =
      if n < 0 then rankSpec q cs (cs.length - (-n).toNat) else []) ∧
    (n = 0 → findClosestMatches q cs n = []) ∧
    (cs.length ≤ (-n).toNat → findClosestMatches q cs n = []) := by
  have hz : findClosestMatches q cs 0 = [] := by
    rw [findClosestMatches_eq_rankSpec q cs 0 le_rfl, rankSpec]
    simp
  refine ⟨?_, ?_, ?_⟩
  · split
    · rename_i hneg
      exact findClosestMatches_of_neg q cs n hneg
    · rename_i hpos
      have : n = 0 := le_antisymm h (not_lt.mp hpos)
      subst this
      exact hz
  · rintro rfl
    exact hz
  · intro hlen
    by_cases hneg : n < 0
    · rw [findClosestMatches_of_neg q cs n hneg, rankSpec]
      have : cs.length - (-n).toNat = 0 := Nat.sub_eq_zero_of_le hlen
      rw [this]
      simp
    · have : n = 0 := le_antisymm h (not_lt.mp hneg)
      subst this
      exact hz

/-- Witness for C4 (amended), at limit `-1` on a two-candidate list. -/
theorem findClosestMatches_nonpos_limit_witness :
    findClosestMatches "a" ["a", "b"] (-1) =
      if (-1 : Int) < 0 then
        rankSpec "a" ["a", "b"] (["a", "b"].length - (-(-1 : Int)).toNat)
      else [] :=
  (findClosestMatches_nonpos_limit "a" ["a", "b"] (-1) (by decide)).1

end Mtcg

namespace Mtcg

/-- Claim C5: the limit bounds distinct names, not rows.  With limit
`n ≥ 1`, the summaries returned by `searchCardsByName` carry at most `n`
distinct name values, while the row count can strictly exceed the limit: on
the scenario-A catalog (two records sharing one name, one per scope) a
search for that name with limit 1 returns both rows. -/
theorem searchCardsByName_limit_bounds_names (db : DB) (q : String)
    (bt : Option BinderType) (n : Int) (h : 1 ≤ n) :
    (dedupFirst ((searchCardsByName db q n bt).map CardSummary.name)).length
        ≤ n.toNat ∧
    (searchCardsByName dbScenarioA "Sol Ring" 1 none).length = 2 ∧
    (∀ s ∈ searchCardsByName dbScenarioA "Sol Ring" 1 none,
      s.name = "Sol Ring") := by
  refine ⟨?_, by decide, by decide⟩
  have h0 : (0 : Int) ≤ n := by omega
  have hsub : ∀ x ∈ (searchCardsByName db q n bt).map CardSummary.name,
      x ∈ searchMatchedNames db q n bt := by
    intro x hx
    rcases List.mem_map.mp hx with ⟨s, hs, rfl⟩
    rw [searchCardsByName] at hs
    split at hs
    · cases hs
    · rcases List.mem_map.mp hs with ⟨c, hc, rfl⟩
      exact mem_fetchRowsRanked hc
  have hnodup :=
    nodup_dedupFirst ((searchCardsByName db q n bt).map CardSummary.name)
  have hss : dedupFirst ((searchCardsByName db q n bt).map CardSummary.name) ⊆
      searchMatchedNames db q n bt :=
    fun x hx => hsub x (mem_dedupFirst.mp hx)
  exact le_trans (List.subperm_of_subset hnodup hss).length_le
    (searchMatchedNames_length_le db q bt n h0)

/-- Witness for C5 at the scenario-A catalog with limit 1. -/
theorem searchCardsByName_limit_bounds_names_witness :
    (dedupFirst ((searchCardsByName dbScenarioA "Sol Ring" 1 none).map
      CardSummary.name)).length ≤ (1 : Int).toNat :=
  (searchCardsByName_limit_bounds_names dbScenarioA "Sol Ring" none 1
    (by decide)).1

/-- Counterexample for C10: an empty search result can arise outside the
claim's three causes.  On a non-empty catalog with a positive limit, a
deck-scoped search for a query that substring-matches no name at all skips
the scope-mismatch branch (its unscoped LIKE probe also finds nothing) and
ranks the scoped full scan, which holds no candidates — so the result is
empty without an empty catalog, a non-positive limit, or a scope mismatch. -/
theorem searchCardsByName_scoped_empty_counterexample :
    searchCardsByName dbScenarioB "zzz" 5 (some BinderType.deck) = [] ∧
    dbScenarioB ≠ [] ∧
    (∀ c ∈ dbScenarioB, nameLike "zzz" c = false) := by
  refine ⟨by decide, by decide, by decide⟩

/-- Claim C10 (amended): with no scope filter the typo-correction fallback
always suggests something — on a non-empty catalog an unscoped search with
limit `n ≥ 1` never returns the empty sequence, whatever the edit distance
between the query and the stored names — and conversely an empty unscoped
result can only arise from an empty catalog or a non-positive limit.  A
scoped search can additionally return the empty sequence when the requested
scope holds no candidate names, outside the scope-mismatch policy. -/
theorem searchCardsByName_unscoped_nonempty (db : DB) (q : String)
    (n : Int) :
    (db ≠ [] → 1 ≤ n → searchCardsByName db q n none ≠ []) ∧
    (searchCardsByName db q n none = [] → db = [] ∨ n ≤ 0) := by
  have main : db ≠ [] → 1 ≤ n → searchCardsByName db q n none ≠ [] := by
    intro hdb hn
    have h0 : (0 : Int) ≤ n := by omega
    have hM : searchMatchedNames db q n none ≠ [] := by
      rw [searchMatchedNames]
      split
      · rename_i hguard
        exact findClosestMatches_ne_nil q _ n (List.length_pos.mp hguard) hn
      · refine findClosestMatches_ne_nil q _ n ?_ hn
        intro hnil
        rw [selectDistinctNames_eq_nil] at hnil
        cases db with
        | nil => exact hdb rfl
        | cons c cs => cases hnil c (List.mem_cons_self _ _)
    cases hM' : searchMatchedNames db q n none with
    | nil => exact absurd hM' hM
    | cons m rest =>
        have hmem : m ∈ searchMatchedNames db q n none := by
          rw [hM']
          exact List.mem_cons_self _ _
        have hrow := searchMatchedNames_mem_name db q n h0 m hmem
        rw [searchCardsByName, hM']
        simp only [List.length_cons, Nat.succ_ne_zero, if_false]
        intro hres
        rw [List.map_eq_nil_iff] at hres
        exact fetchRowsRanked_ne_nil hrow hres
  refine ⟨main, ?_⟩
  intro hempty
  by_cases hdb : db = []
  · exact Or.inl hdb
  · refine Or.inr ?_
    by_contra hpos
    exact main hdb (by omega) hempty

/-- Witness for C10 (amended): a misspelled query on the scenario-C catalog
still produces a result. -/
theorem searchCardsByName_unscoped_nonempty_witness :
    searchCardsByName dbScenarioC "Sords to Plowshares" 5 none ≠ [] :=
  (searchCardsByName_unscoped_nonempty dbScenarioC "Sords to Plowshares" 5).1
    (by decide) (by decide)

/-- Claim C2: replace-then-insert round trip.  After `importCards`, the
distinct stored names are exactly the names occurring in the input: the
membership equivalence holds for every prior state, the result does not
depend on the prior state at all, and permuting the input leaves the
distinct-name set unchanged. -/
theorem importCards_distinct_names (db db' : DB) (cards cards' : List Card)
    (hp : cards.Perm cards') (g : String) :
    (g ∈ selectDistinctNames (importCards db cards) (fun _ => true) ↔
      ∃ c ∈ cards, c.name = g) ∧
    importCards db cards = importCards db' cards ∧
    (g ∈ selectDistinctNames (importCards db cards) (fun _ => true) ↔
      g ∈ selectDistinctNames (importCards db' cards') (fun _ => true)) := by
  have e1 := importCards_eq db cards
  have e3 := importCards_eq db' cards'
  refine ⟨?_, by rw [e1, importCards_eq db' cards], ?_⟩
  · rw [e1, mem_selectDistinctNames]
    constructor
    · rintro ⟨c, hc, _, rfl⟩
      exact ⟨c, hc, rfl⟩
    · rintro ⟨c, hc, rfl⟩
      exact ⟨c, hc, rfl, rfl⟩
  · rw [e1, e3, mem_selectDistinctNames, mem_selectDistinctNames]
    constructor
    · rintro ⟨c, hc, _, rfl⟩
      exact ⟨c, hp.mem_iff.mp hc, rfl, rfl⟩
    · rintro ⟨c, hc, _, rfl⟩
      exact ⟨c, hp.mem_iff.mpr hc, rfl, rfl⟩

/-- Witness for C2: importing two cards in either order stores exactly their
names, over a non-trivial prior state. -/
theorem importCards_distinct_names_witness :
    "Counterspell" ∈
      selectDistinctNames
        (importCards dbScenarioA
          [sampleCard "Boxed" BinderType.binder "Counterspell" "C" 1,
           cardKarrthus1])
        (fun _ => true) ↔
      ∃ c ∈ [sampleCard "Boxed" BinderType.binder "Counterspell" "C" 1,
             cardKarrthus1], c.name = "Counterspell" :=
  (importCards_distinct_names dbScenarioA dbScenarioB
    [sampleCard "Boxed" BinderType.binder "Counterspell" "C" 1, cardKarrthus1]
    [cardKarrthus1, sampleCard "Boxed" BinderType.binder "Counterspell" "C" 1]
    (List.Perm.swap cardKarrthus1
      (sampleCard "Boxed" BinderType.binder "Counterspell" "C" 1) [])
    "Counterspell").1

end Mtcg

namespace Mtcg

theorem listDecks_names_eq (db : DB) :
    (listDecks db).map Deck.name =
      isortLe strLe (dedupFirst
        ((db.filter fun c => c.binderType == BinderType.deck).map
          Card.binderName)) := by
  rw [listDecks, List.map_map]
  exact List.map_id _

/-- Claim C7: `listDecks` aggregate contract — one entry per distinct deck
(`scope = GROUP`) group name, sorted ascending under BINARY collation with
no duplicates, each entry's `cardCount` the sum of that group's quantities;
collection-scoped records contribute neither entries nor quantities (the
filters range over deck rows only). -/
theorem listDecks_aggregate_contract (db : DB) :
    ((listDecks db).map Deck.name).Pairwise strLe ∧
    ((listDecks db).map Deck.name).Nodup ∧
    (∀ g, g ∈ (listDecks db).map Deck.name ↔
      ∃ c ∈ db, c.binderType = BinderType.deck ∧ c.binderName = g) ∧
    (∀ e ∈ listDecks db, e.cardCount =
      ((db.filter fun c =>
          c.binderType == BinderType.deck && c.binderName == e.name).map
        Card.quantity).sum) := by
  refine ⟨?_, ?_, ?_, ?_⟩
  · rw [listDecks_names_eq]
    exact pairwise_isortLe strLe strLe_total
      (fun hab hbc => strLe_trans hab hbc) _
  · rw [listDecks_names_eq]
    exact isortLe_nodup strLe (nodup_dedupFirst _)
  · intro g
    rw [listDecks_names_eq, (isortLe_perm strLe _).mem_iff, mem_dedupFirst,
      List.mem_map]
    constructor
    · rintro ⟨c, hc, rfl⟩
      rcases List.mem_filter.mp hc with ⟨h1, h2⟩
      exact ⟨c, h1, beq_iff_eq.mp h2, rfl⟩
    · rintro ⟨c, h1, h2, rfl⟩
      exact ⟨c, List.mem_filter.mpr ⟨h1, beq_iff_eq.mpr h2⟩, rfl⟩
  · intro e he
    rw [listDecks] at he
    rcases List.mem_map.mp he with ⟨nm, hnm, rfl⟩
    dsimp only
    have hff : (db.filter (fun c => c.binderType == BinderType.deck)).filter
        (fun c => c.binderName == nm) =
        db.filter (fun c =>
          c.binderType == BinderType.deck && c.binderName == nm) := by
      rw [List.filter_filter]
      exact List.filter_congr (fun c _ => Bool.and_comm _ _)
    rw [hff]

/-- Witness for C7 at the scenario-E catalog. -/
theorem listDecks_aggregate_contract_witness :
    "Karrthus BRG" ∈ (listDecks dbScenarioE).map Deck.name :=
  ((listDecks_aggregate_contract dbScenarioE).2.2.1 "Karrthus BRG").mpr
    ⟨cardKarrthus1, by decide, by decide, by decide⟩

theorem execStmts_of_selects (db : DB) (L : List SqlStmt)
    (h : ∀ s ∈ L, s.isSelect = true) : execStmts db L = db := by
  induction L generalizing db with
  | nil => rfl
  | cons s rest ih =>
      cases s with
      | select p =>
          rw [execStmts, List.foldl_cons]
          exact ih db (fun t ht => h t (List.mem_cons_of_mem _ ht))
      | deleteAll =>
          have := h _ (List.mem_cons_self _ _)
          simp [SqlStmt.isSelect] at this
      | insert c =>
          have := h _ (List.mem_cons_self _ _)
          simp [SqlStmt.isSelect] at this

theorem searchTrace_selects (db : DB) (q : String) (n : Int)
    (bt : Option BinderType) :
    ∀ s ∈ searchTrace db q n bt, s.isSelect = true := by
  intro s hs
  rw [searchTrace.eq_def] at hs
  rcases List.mem_append.mp hs with hs | hs
  · rcases List.mem_append.mp hs with hs | hs
    · rw [List.mem_singleton] at hs
      subst hs
      rfl
    · split at hs
      · cases hs
      · cases bt with
        | none =>
            rw [List.mem_singleton] at hs
            subst hs
            rfl
        | some b =>
            rcases List.mem_cons.mp hs with rfl | hs
            · rfl
            · split at hs
              · cases hs
              · rw [List.mem_singleton] at hs
                subst hs
                rfl
  · split at hs
    · cases hs
    · rw [List.mem_singleton] at hs
      subst hs
      rfl

theorem deckTrace_selects (db : DB) (nm : String) :
    ∀ s ∈ deckTrace db nm, s.isSelect = true := by
  intro s hs
  rw [deckTrace] at hs
  rcases List.mem_cons.mp hs with rfl | hs
  · rfl
  · split at hs
    · cases hs
    · rw [List.mem_singleton] at hs
      subst hs
      rfl

/-- Claim C9: read-only frame.  Each query operation executes only `SELECT`
statements, so replaying the statement sequence of any `searchCardsByName`,
`listDecks` or `getDeckCards` call leaves the stored relation unchanged;
only the bulk import's trace contains writes. -/
theorem query_operations_read_only (db : DB) (q : String) (n : Int)
    (bt : Option BinderType) (nm : String) :
    execStmts db (searchTrace db q n bt) = db ∧
    execStmts db listDecksTrace = db ∧
    execStmts db (deckTrace db nm) = db ∧
    (∀ s ∈ searchTrace db q n bt, s.isSelect = true) ∧
    (∀ s ∈ listDecksTrace, s.isSelect = true) ∧
    (∀ s ∈ deckTrace db nm, s.isSelect = true) := by
  have hl : ∀ s ∈ listDecksTrace, s.isSelect = true := by
    intro s hs
    rw [listDecksTrace, List.mem_singleton] at hs
    subst hs
    rfl
  exact ⟨execStmts_of_selects db _ (searchTrace_selects db q n bt),
    execStmts_of_selects db _ hl,
    execStmts_of_selects db _ (deckTrace_selects db nm),
    searchTrace_selects db q n bt, hl, deckTrace_selects db nm⟩

/-- Witness for C9 at a concrete catalog and query, discharging the
statement-membership hypothesis on the `listDecks` trace. -/
theorem query_operations_read_only_witness :
    execStmts dbScenarioB (searchTrace dbScenarioB "Sol Ring" 5 none) =
        dbScenarioB ∧
    (SqlStmt.select (fun c => c.binderType == BinderType.deck)).isSelect =
        true :=
  ⟨(query_operations_read_only dbScenarioB "Sol Ring" 5 none "Zurgo").1,
   (query_operations_read_only dbScenarioB "Sol Ring" 5 none "Zurgo").2.2.2.2.1
     _ (List.mem_singleton.mpr rfl)⟩

end Mtcg

namespace Mtcg

/-- Counterexample for C6: a catalog whose only deck is named the empty
string does contain `scope = GROUP` records, yet `getDeckCards` returns
null — JavaScript's `if (!resolvedName)` is falsy on the empty-string name. -/
theorem getDeckCards_empty_name_counterexample :
    getDeckCards dbEmptyDeckName "" = none ∧
    dbEmptyDeckName.filter (fun c => c.binderType == BinderType.deck) ≠ [] := by
  constructor
  · decide
  · decide

/-- Claim C6 (amended): `getDeckCards` returns null if and only if the
catalog has no deck (`scope = GROUP`) records or the single best fuzzy
match among the deck names is the empty string (which the code's falsy
check rejects): no deck records give null, a null result means one of the
two causes, and an empty-string best match gives null even when deck
records exist.  Whenever it returns a result, the resolved name is one of
the existing deck names with minimum edit distance to the input, and the
contents are exactly that deck's rows, ordered by card name ascending. -/
theorem getDeckCards_contract (db : DB) (q : String) :
    (db.filter (fun c => c.binderType == BinderType.deck) = [] →
      getDeckCards db q = none) ∧
    (∀ res, getDeckCards db q = some res →
      res.resolvedName ∈ deckNamesOf db ∧
      (∀ m ∈ deckNamesOf db,
        computeLevenshteinDistance q res.resolvedName ≤
          computeLevenshteinDistance q m) ∧
      res.cards.Perm
        ((db.filter (fun c => c.binderType == BinderType.deck &&
            c.binderName == res.resolvedName)).map cardToSummary) ∧
      (res.cards.map CardSummary.name).Pairwise strLe) ∧
    (getDeckCards db q = none →
      db.filter (fun c => c.binderType == BinderType.deck) = [] ∨
      (findClosestMatches q (deckNamesOf db) 1).head? = some "") ∧
    ((findClosestMatches q (deckNamesOf db) 1).head? = some "" →
      getDeckCards db q = none) := by
  refine ⟨?_, ?_, ?_, ?_⟩
  · intro h
    have hd : deckNamesOf db = [] := deckNamesOf_eq_nil.mpr h
    rw [getDeckCards, hd]
    simp
  · intro res h
    rw [getDeckCards] at h
    split at h
    · cases h
    · rename_i hlen
      split at h
      · cases h
      · rename_i r heq
        split at h
        · cases h
        · rename_i hr0
          injection h with h'
          subst h'
          cases hfc : findClosestMatches q (deckNamesOf db) 1 with
          | nil => rw [hfc] at heq; cases heq
          | cons a t =>
              rw [hfc] at heq
              have hra : r = a := by
                simpa using heq.symm
              subst hra
              refine ⟨?_, ?_, ?_, ?_⟩
              · exact findClosestMatches_subset q _ 1 (by omega) r
                  (hfc ▸ List.mem_cons_self _ _)
              · intro m hm
                exact findClosestMatches_head_min q _ 1 (by omega) r t hfc m hm
              · exact (isortLe_perm _ _).map cardToSummary
              · rw [List.map_map]
                exact (pairwise_isortLe
                    (fun a b : Card => strLe a.name b.name)
                    (fun a b => strLe_total _ _)
                    (fun hab hbc => strLe_trans hab hbc) _).map _
                  (fun a b hab => hab)
  · intro h
    rw [getDeckCards] at h
    split at h
    · rename_i hlen
      exact Or.inl (deckNamesOf_eq_nil.mp (List.length_eq_zero.mp hlen))
    · rename_i hlen
      have hne : deckNamesOf db ≠ [] := by
        intro hnil
        exact hlen (by rw [hnil]; rfl)
      have hfne : findClosestMatches q (deckNamesOf db) 1 ≠ [] :=
        findClosestMatches_ne_nil q _ 1 hne (by omega)
      split at h
      · rename_i heq
        cases hfc : findClosestMatches q (deckNamesOf db) 1 with
        | nil => exact absurd hfc hfne
        | cons a t => rw [hfc] at heq; cases heq
      · rename_i r heq
        split at h
        · rename_i hr0
          subst hr0
          exact Or.inr heq
        · cases h
  · intro h
    rw [getDeckCards]
    split
    · rfl
    · rw [h]
      simp

/-- Witness for C6 (amended): scenario E — the misspelled query `Zurgi`
resolves to the existing deck `Zurgo`. -/
theorem getDeckCards_contract_witness :
    ({ resolvedName := "Zurgo",
       cards := [{ binderType := BinderType.deck, binderName := "Zurgo",
                   quantity := 1, name := "a2", scryfallId := "aaaa-bbbb" },
                 { binderType := BinderType.deck, binderName := "Zurgo",
                   quantity := 1, name := "b3", scryfallId := "aaaa-bbbb" },
                 { binderType := BinderType.deck, binderName := "Zurgo",
                   quantity := 1, name := "c1", scryfallId := "aaaa-bbbb" }] } :
      DeckCardsResult).resolvedName ∈ deckNamesOf dbScenarioE :=
  ((getDeckCards_contract dbScenarioE "Zurgi").2.1 _ (by decide)).1

end Mtcg
